import Mathlib

/-!
Verification of the blip-collection application's two core services against
their natural-language specification.

The development shallowly embeds the TypeScript sources:

* the catalog matcher (`normalizeBlipName`, `levenshteinDistance`,
  `similarityRatio`, `loadRadarData`'s volume ordering, and
  `findPriorRadarMatch`) from `src/server/services/llm-coaching.test.ts`
  (lines 277-433, the bundled `radar-matcher` source), and
* the record store (`loadSubmissions`, `saveSubmission`, `acquireLock`,
  `releaseLock`) from `src/server/services/storage.ts`.

Strings are modelled as `List Char` (JavaScript strings are sequences of
code units; all claims concern per-character transformations).  JavaScript
`toLowerCase` is modelled on its ASCII fragment by `Char.toLower`, and the
regex classes `\s` and `\w` by the character predicates below.  Numeric
similarity scores are modelled by `ℚ` (exact arithmetic for the division
`distance / maxLen`; every quantity the claims mention is exactly
representable).
-/

namespace Radar

/-- The JavaScript whitespace class `\s` restricted to ASCII: space, tab,
newline, carriage return, vertical tab, form feed.  Used by the regexes
`/\s/` and by `String.prototype.trim` in the source. -/
def isWs (c : Char) : Bool :=
  c = ' ' || c = '\t' || c = '\n' || c = '\r' || c = '\x0b' || c = '\x0c'

/-- The JavaScript word-character class `\w`: ASCII letters, digits and
underscore. -/
def isWordChar (c : Char) : Bool :=
  ('a' ≤ c && c ≤ 'z') || ('A' ≤ c && c ≤ 'Z') || ('0' ≤ c && c ≤ '9') || c = '_'

/-- `String.prototype.trim`: drop leading and trailing whitespace. -/
def trimChars (l : List Char) : List Char :=
  ((l.dropWhile isWs).reverse.dropWhile isWs).reverse

/-- State machine for the global replacement `replace(/\s+/g, ' ')`: each
maximal run of whitespace characters is emitted as a single space.  The
boolean records whether the previous input character was whitespace (in
which case the current run's space has already been emitted). -/
def squashAux : Bool → List Char → List Char
  | _, [] => []
  | prev, c :: cs =>
    if isWs c then
      if prev then squashAux true cs else ' ' :: squashAux true cs
    else c :: squashAux false cs

/-- `replace(/\s+/g, ' ')`: collapse every whitespace run to one space. -/
def collapseWs (l : List Char) : List Char := squashAux false l

/-- Case-insensitive suffix test, as performed by an anchored regex such as
`/\.js$/i`. -/
def endsWithCI (l suf : List Char) : Bool :=
  suf.length ≤ l.length && (l.map Char.toLower).drop (l.length - suf.length) == suf

/-- `replace(/\.xx$/i, '')` for a concrete suffix `suf`: if the string ends
with `suf` (case-insensitively) remove that ending, otherwise leave the
string unchanged. -/
def stripOneSuffix (suf l : List Char) : List Char :=
  if endsWithCI l suf then l.take (l.length - suf.length) else l

/-- `normalizeBlipName` from the source (`llm-coaching.test.ts:277-294`):
lowercase and trim; then the four successive anchored replacements
`/\.js$/i`, `/\.io$/i`, `/\.net$/i`, `/\.org$/i` (each applied to the result
of the previous one); then `replace(/[^\w\s]/g, '')`; then
`replace(/\s+/g, ' ')` and a final trim. -/
def normalizeBlipName (name : List Char) : List Char :=
  let n1 := trimChars (name.map Char.toLower)
  let n2 := stripOneSuffix (".org".data)
    (stripOneSuffix (".net".data)
      (stripOneSuffix (".io".data)
        (stripOneSuffix (".js".data) n1)))
  let n3 := n2.filter (fun c => isWordChar c || isWs c)
  trimChars (collapseWs n3)

/-- The Levenshtein recurrence computed by the dynamic-programming matrix of
`levenshteinDistance` (`llm-coaching.test.ts:300-329`).  The matrix entry
`matrix[i][j]` is the distance between the length-`i` prefix of `str1` and
the length-`j` prefix of `str2`; its defining recurrence peels the *last*
character of each prefix.  Representing each prefix reversed turns that
recurrence into the structural recursion below: the three arguments of
`Math.min` appear in source order (substitution, insertion, deletion). -/
def levAux : List Char → List Char → Nat
  | [] => fun ys => ys.length
  | x :: xs => fun ys =>
    let f := levAux xs
    let rec go : List Char → Nat
      | [] => xs.length + 1
      | y :: ys' =>
        if x = y then f ys'
        else 1 + min (f ys') (min (go ys') (f (y :: ys')))
    go ys

/-- `levenshteinDistance(str1, str2)` is the bottom-right matrix entry
`matrix[len1][len2]`, i.e. the recurrence applied to the full (reversed)
strings. -/
def levenshteinDistance (str1 str2 : List Char) : Nat :=
  levAux str1.reverse str2.reverse

/-- `similarityRatio` from the source (`llm-coaching.test.ts:335-341`); the
final `o` of the source name is dropped here for a tooling reason, the
function is otherwise verbatim: `maxLen = 0` yields `1.0`, otherwise
`1 - distance / maxLen`, computed in exact rational arithmetic. -/
def similarityScore (str1 str2 : List Char) : ℚ :=
  let maxLen := max str1.length str2.length
  if maxLen = 0 then 1 else 1 - (levenshteinDistance str1 str2 : ℚ) / (maxLen : ℚ)

/-- Specification-level edit scripts: `Edit a b n` holds iff `a` can be
transformed into `b` by `n` single-character operations, each an insertion,
a deletion, or a substitution of one character by a different one (matching
characters are kept for free). -/
inductive Edit : List Char → List Char → Nat → Prop where
  | nil : Edit [] [] 0
  | keep {xs ys n} (x : Char) : Edit xs ys n → Edit (x :: xs) (x :: ys) n
  | subst {xs ys n} {x y : Char} : x ≠ y → Edit xs ys n → Edit (x :: xs) (y :: ys) (n + 1)
  | ins {xs ys n} (y : Char) : Edit xs ys n → Edit xs (y :: ys) (n + 1)
  | del {xs ys n} (x : Char) : Edit xs ys n → Edit (x :: xs) ys (n + 1)

/-- One catalog entry as stored in a radar volume file
(`interface RadarData`, `llm-coaching.test.ts:259-264`). -/
structure RadarData where
  name : List Char
  ring : List Char
  quadrant : List Char
  description : List Char
deriving DecidableEq

/-- One loaded volume (`interface RadarVolume` plus the ordinal that
`loadRadarData` parses out of the volume label with the regex
`/Volume (\d+)/`; reading the snapshot files from disk and the label parse
are I/O and are abstracted into the `volume` and `num` fields). -/
structure RadarVolume where
  volume : List Char
  num : Nat
  data : List RadarData
deriving DecidableEq

/-- The match record returned to callers (`PriorRadarBlip` in
`src/src/types.ts`). -/
structure PriorRadarBlip where
  name : List Char
  ring : List Char
  quadrant : List Char
  description : List Char
  volume : List Char
deriving DecidableEq

/-- The object literal built by `findPriorRadarMatch` for a matching entry:
the entry's four fields plus the volume label. -/
def entryToBlip (v : RadarVolume) (b : RadarData) : PriorRadarBlip :=
  { name := b.name, ring := b.ring, quadrant := b.quadrant,
    description := b.description, volume := v.volume }

/-- `SIMILARITY_THRESHOLD = 0.85` from `findPriorRadarMatch`. -/
def SIMILARITY_THRESHOLD : ℚ := 85 / 100

/-- The `bestMatch` update performed for one non-exactly-matching entry:
candidates below the threshold are ignored; an above-threshold candidate
replaces the retained one only when its similarity is strictly greater
(`!bestMatch || similarity > bestMatch.similarity`). -/
def stepBest (normInput : List Char) (best : Option (PriorRadarBlip × ℚ))
    (q : RadarVolume × RadarData) : Option (PriorRadarBlip × ℚ) :=
  let similarity := similarityScore normInput (normalizeBlipName q.2.name)
  if SIMILARITY_THRESHOLD ≤ similarity then
    match best with
    | none => some (entryToBlip q.1 q.2, similarity)
    | some (_, bs) => if bs < similarity then some (entryToBlip q.1 q.2, similarity) else best
  else best

/-- The doubly nested scan loop of `findPriorRadarMatch`
(`llm-coaching.test.ts:396-428`), over the (volume, entry) pairs in
iteration order: an exact normalized-name equality returns immediately;
otherwise the `bestMatch` accumulator is updated and the scan continues;
after the last entry the retained best match (if any) is returned. -/
def scanEntries (normInput : List Char) :
    List (RadarVolume × RadarData) → Option (PriorRadarBlip × ℚ) → Option PriorRadarBlip
  | [], best => best.map Prod.fst
  | q :: rest, best =>
    if normInput = normalizeBlipName q.2.name then some (entryToBlip q.1 q.2)
    else scanEntries normInput rest (stepBest normInput best q)

/-- Stable insertion of a volume into a list already sorted by descending
ordinal: the inserted volume goes in front of the first strictly-smaller
ordinal, after any equal ordinal already present. -/
def insertVol (v : RadarVolume) : List RadarVolume → List RadarVolume
  | [] => [v]
  | w :: ws => if w.num ≤ v.num then v :: w :: ws else w :: insertVol v ws

/-- The `volumes.sort((a, b) => bNum - aNum)` step of `loadRadarData`:
a stable sort by descending volume ordinal (`Array.prototype.sort` is
specified to be stable; it is modelled by stable insertion sort). -/
def sortVolumes : List RadarVolume → List RadarVolume
  | [] => []
  | v :: vs => insertVol v (sortVolumes vs)

/-- The iteration order of the nested loops: volumes sorted most recent
first, entries of each volume in file order. -/
def volumePairs (vols : List RadarVolume) : List (RadarVolume × RadarData) :=
  (sortVolumes vols).flatMap (fun v => v.data.map (fun b => (v, b)))

/-- `findPriorRadarMatch(blipName)` (`llm-coaching.test.ts:387-433`): the
loaded volumes are sorted most recent first, the query is normalized, and
the scan runs with an initially empty `bestMatch`.  The on-disk loading of
`loadRadarData` is abstracted into the `vols` argument. -/
def findPriorRadarMatch (vols : List RadarVolume) (blipName : List Char) :
    Option PriorRadarBlip :=
  scanEntries (normalizeBlipName blipName) (volumePairs vols) none

/-- Similarity of the normalized query against one scanned pair's
normalized entry name. -/
def simOf (normInput : List Char) (q : RadarVolume × RadarData) : ℚ :=
  similarityScore normInput (normalizeBlipName q.2.name)

/-- Invariant characterising the image of `normalizeBlipName`: only word
characters and single separating spaces, all lower-case-stable, no leading
or trailing whitespace. -/
def StdForm (l : List Char) : Prop :=
  (∀ c ∈ l, isWordChar c = true ∨ c = ' ') ∧
  (∀ c ∈ l, Char.toLower c = c) ∧
  l.Chain' (fun a b => ¬(isWs a = true ∧ isWs b = true)) ∧
  l.dropWhile isWs = l ∧
  l.reverse.dropWhile isWs = l.reverse

/-- The value fed into the final `collapse whitespace and trim` steps of
`normalizeBlipName`: lower-cased, trimmed, suffix-stripped and filtered. -/
def normCore (s : List Char) : List Char :=
  (stripOneSuffix (".org".data)
    (stripOneSuffix (".net".data)
      (stripOneSuffix (".io".data)
        (stripOneSuffix (".js".data)
          (trimChars (s.map Char.toLower)))))).filter (fun c => isWordChar c || isWs c)

/-- The normalization algorithm exactly as claim C6 states it: lowercase and
trim; strip **at most one** trailing suffix from the set `.js`, `.io`,
`.net`, `.org` when present at the end; remove all characters that are not
**alphanumeric** or whitespace (so underscores are removed); collapse
whitespace runs; trim again.  Stated with independent combinators
(`List.isSuffixOf`, `Char.isAlphanum`) for comparison against the source
function. -/
def claimC6Normalize (name : List Char) : List Char :=
  let n1 := trimChars (name.map Char.toLower)
  let n2 :=
    if List.isSuffixOf (".js".data) n1 then n1.take (n1.length - 3)
    else if List.isSuffixOf (".io".data) n1 then n1.take (n1.length - 3)
    else if List.isSuffixOf (".net".data) n1 then n1.take (n1.length - 4)
    else if List.isSuffixOf (".org".data) n1 then n1.take (n1.length - 4)
    else n1
  let n3 := n2.filter (fun c => c.isAlphanum || isWs c)
  trimChars (collapseWs n3)

/-- The amended C6 algorithm, matching what the code does: the four suffixes
are stripped **sequentially**, in the order `.js`, `.io`, `.net`, `.org`,
each removed when present at the end of the *current* string (so a name
ending in stacked suffixes such as `x.org.js` loses both), and a character
is kept iff it is alphanumeric, an **underscore**, or whitespace.  Stated
with independent combinators (`List.isSuffixOf`, `Char.isAlphanum`). -/
def claimC6AmendedNormalize (name : List Char) : List Char :=
  let n1 := trimChars (name.map Char.toLower)
  let n2a := if List.isSuffixOf (".js".data) n1 then n1.take (n1.length - 3) else n1
  let n2b := if List.isSuffixOf (".io".data) n2a then n2a.take (n2a.length - 3) else n2a
  let n2c := if List.isSuffixOf (".net".data) n2b then n2b.take (n2b.length - 4) else n2b
  let n2d := if List.isSuffixOf (".org".data) n2c then n2c.take (n2c.length - 4) else n2c
  let n3 := n2d.filter (fun c => c.isAlphanum || c = '_' || isWs c)
  trimChars (collapseWs n3)

/-- Sample catalog data for concrete instantiations: a recent edition and an
older edition both containing an entry whose name normalizes to `react`. -/
def sampleVolNew : RadarVolume :=
  { volume := "Volume 2 (Apr 2011)".data, num := 2,
    data := [{ name := "React".data, ring := "adopt".data,
               quadrant := "languages-and-frameworks".data,
               description := "A library".data }] }

def sampleVolOld : RadarVolume :=
  { volume := "Volume 1 (Jan 2010)".data, num := 1,
    data := [{ name := "react".data, ring := "trial".data,
               quadrant := "languages-and-frameworks".data,
               description := "Earlier blip".data }] }

/-- A catalog entry whose name normalizes to the empty string. -/
def sampleVolPunct : RadarVolume :=
  { volume := "Volume 1 (Jan 2010)".data, num := 1,
    data := [{ name := "???".data, ring := "hold".data,
               quadrant := "tools".data, description := "Punctuation only".data }] }

/-- A single edition with a close fuzzy match and a dissimilar entry. -/
def sampleVolFuzzy : RadarVolume :=
  { volume := "Volume 3 (Oct 2011)".data, num := 3,
    data := [{ name := "abcdefghix".data, ring := "trial".data,
               quadrant := "tools".data, description := "Close name".data },
             { name := "zzzzzzzzzz".data, ring := "assess".data,
               quadrant := "tools".data, description := "Far name".data }] }

end Radar

namespace Store

open Radar (PriorRadarBlip)

/-- `Quadrant` from `src/src/types.ts` (the frontend mirror of the backend
types imported by `storage.ts`). -/
inductive Quadrant where
  | techniques
  | tools
  | platforms
  | languagesAndFrameworks
deriving DecidableEq

/-- `Ring` from `src/src/types.ts`. -/
inductive Ring where
  | adopt
  | trial
  | assess
  | caution
deriving DecidableEq

/-- `SubmissionType` from `src/src/types.ts`. -/
inductive SubmissionType where
  | new
  | reblip
  | move
  | update
deriving DecidableEq

/-- `BlipSubmission` from `src/src/types.ts`: the record persisted by the
store, field for field (optional fields as `Option`). -/
structure BlipSubmission where
  id : List Char
  name : List Char
  quadrant : Quadrant
  ring : Ring
  description : List Char
  clientExamples : Option (List (List Char))
  cautionReasoning : Option (List Char)
  submissionType : SubmissionType
  priorRadarReference : Option PriorRadarBlip
  suggestedNewRing : Option Ring
  createdAt : List Char
deriving DecidableEq

/-- The observable states of the primary storage file.  The JSON text is
abstracted to its parse outcome: the file may be absent, present but not
syntactically valid JSON (`JSON.parse` throws), present and valid but not an
array, or a valid array of submissions.  `JSON.stringify` followed by
`JSON.parse` round-trips an array of records, so a successful write stores
exactly the array that was serialized. -/
inductive FileState where
  | absent
  | corrupt
  | notArray
  | valid (subs : List BlipSubmission)
deriving DecidableEq

/-- Parse outcome of a present file. -/
inductive ParsedJson where
  | arr (subs : List BlipSubmission)
  | nonArray
deriving DecidableEq

/-- `fs.readFileSync` + `JSON.parse` on a present file: a corrupt file makes
`JSON.parse` throw (modelled as `Except.error`); otherwise the parsed value
is an array or some other JSON value. -/
def readAndParse : FileState → Except (List Char) ParsedJson
  | FileState.absent => Except.error ("ENOENT".data)
  | FileState.corrupt => Except.error ("SyntaxError: JSON parse".data)
  | FileState.notArray => Except.ok ParsedJson.nonArray
  | FileState.valid subs => Except.ok (ParsedJson.arr subs)

/-- `loadSubmissions` (`storage.ts:96-118`): a missing file yields `[]`; the
read-and-parse is wrapped in `try/catch`, a parse error is logged and yields
`[]`; a parsed non-array is logged and yields `[]`; otherwise the parsed
array is returned. -/
def loadSubmissions (fs : FileState) : List BlipSubmission :=
  match fs with
  | FileState.absent => []
  | fs' =>
    match readAndParse fs' with
    | Except.error _ => []
    | Except.ok ParsedJson.nonArray => []
    | Except.ok (ParsedJson.arr subs) => subs

/-- The filesystem state touched by the store: the primary file, the
`.backup` sibling, the transient `.tmp` file, and whether the `.lock`
marker exists. -/
structure StoreState where
  file : FileState
  backup : FileState
  tmp : Option FileState
  lock : Bool
deriving DecidableEq

/-- `saveSubmission` (`storage.ts:124-162`) as one state transition.

Modelling notes: the retry loop and timing of `acquireLock` are abstracted:
in a single sequential call, if the lock marker exists (and no concurrent
holder releases it), every retry fails and the timeout path runs — the
stale marker is force-removed, the `Failed to acquire lock: timeout` error
is thrown, and the `finally` block's `releaseLock` deletes the (absent)
marker again, ignoring errors.  `writeFault = true` injects a serialization
fault: the bytes written to the temp file (and atomically renamed onto the
primary path) do not parse, which the post-write verification re-read
detects.  All error paths flow through the `finally`, so the returned state
always has the lock released. -/
def saveSubmission (st : StoreState) (sub : BlipSubmission) (writeFault : Bool) :
    Except (List Char) Unit × StoreState :=
  if st.lock then
    (Except.error ("Failed to acquire lock: timeout".data), { st with lock := false })
  else
    let st1 := { st with lock := true }
    let submissions := loadSubmissions st1.file
    let updated := submissions ++ [sub]
    let tmpContent : FileState :=
      if writeFault then FileState.corrupt else FileState.valid updated
    let st2 := { st1 with tmp := some tmpContent }
    let st3 :=
      match st2.file with
      | FileState.absent => st2
      | f => { st2 with backup := f }
    let st4 := { st3 with file := tmpContent, tmp := none }
    match st4.file with
    | FileState.valid l =>
      if l.length = updated.length then (Except.ok (), { st4 with lock := false })
      else (Except.error ("Verification failed after write".data), { st4 with lock := false })
    | FileState.corrupt =>
      (Except.error ("SyntaxError: JSON parse".data), { st4 with lock := false })
    | _ => (Except.error ("Verification failed after write".data), { st4 with lock := false })

/-- The store before any append: no primary file, no backup, no temp file,
no lock marker. -/
def initState : StoreState :=
  { file := FileState.absent, backup := FileState.absent, tmp := none, lock := false }

/-- Appending a list of records one at a time, all writes succeeding. -/
def saveAll (st : StoreState) (subs : List BlipSubmission) : StoreState :=
  subs.foldl (fun s x => (saveSubmission s x false).2) st

/-- Sample records for concrete instantiations. -/
def sampleSubA : BlipSubmission :=
  { id := "id-1".data, name := "React".data, quadrant := Quadrant.tools,
    ring := Ring.adopt, description := "first".data, clientExamples := none,
    cautionReasoning := none, submissionType := SubmissionType.new,
    priorRadarReference := none, suggestedNewRing := none,
    createdAt := "2026-01-01".data }

def sampleSubB : BlipSubmission :=
  { id := "id-2".data, name := "Vue".data, quadrant := Quadrant.tools,
    ring := Ring.trial, description := "second".data, clientExamples := none,
    cautionReasoning := none, submissionType := SubmissionType.update,
    priorRadarReference := none, suggestedNewRing := some Ring.assess,
    createdAt := "2026-01-02".data }

end Store

namespace Radar

theorem levAux_nil (ys : List Char) : levAux [] ys = ys.length := rfl

theorem levAux_cons_nil (x : Char) (xs : List Char) :
    levAux (x :: xs) [] = xs.length + 1 := rfl

theorem levAux_nil_right (xs : List Char) : levAux xs [] = xs.length := by
  cases xs with
  | nil => rfl
  | cons x xs => rfl

theorem levAux_cons_cons (x y : Char) (xs ys : List Char) :
    levAux (x :: xs) (y :: ys) =
      if x = y then levAux xs ys
      else 1 + min (levAux xs ys) (min (levAux (x :: xs) ys) (levAux xs (y :: ys))) := rfl

/-- Adjacency bounds for the Levenshtein recurrence: removing or adding one
leading character on either side changes the value by at most one.  All four
bounds are proved simultaneously by strong induction on the total length. -/
theorem levAux_adj :
    ∀ N xs ys, xs.length + ys.length ≤ N →
      (∀ a : Char, levAux xs ys ≤ levAux (a :: xs) ys + 1) ∧
      (∀ a : Char, levAux (a :: xs) ys ≤ levAux xs ys + 1) ∧
      (∀ b : Char, levAux xs ys ≤ levAux xs (b :: ys) + 1) ∧
      (∀ b : Char, levAux xs (b :: ys) ≤ levAux xs ys + 1) := by
  intro N
  induction N with
  | zero =>
    intro xs ys h
    have hxs : xs = [] := by
      cases xs with
      | nil => rfl
      | cons c cs => simp at h
    have hys : ys = [] := by
      cases ys with
      | nil => rfl
      | cons c cs => simp at h
    subst hxs; subst hys
    refine ⟨?_, ?_, ?_, ?_⟩ <;> intro c <;>
      simp [levAux_nil, levAux_cons_nil]
  | succ N ih =>
    intro xs ys h
    match xs, ys with
    | [], [] =>
      refine ⟨?_, ?_, ?_, ?_⟩ <;> intro c <;>
        simp [levAux_nil, levAux_cons_nil]
    | [], y :: ys' =>
      have ihy := ih [] ys' (by simp at h ⊢; omega)
      refine ⟨?_, ?_, ?_, ?_⟩ <;> intro c
      · have h1 := ihy.1 c
        rw [levAux_cons_cons]
        simp only [levAux_nil, List.length_cons, List.length_nil] at *
        split_ifs with hc
        · omega
        · omega
      · rw [levAux_cons_cons]
        simp only [levAux_nil, List.length_cons, List.length_nil] at *
        split_ifs with hc
        · omega
        · omega
      · simp [levAux_nil]
      · simp [levAux_nil]
    | x :: xs', [] =>
      have ihx := ih xs' [] (by simp at h ⊢; omega)
      refine ⟨?_, ?_, ?_, ?_⟩ <;> intro c
      · simp [levAux_cons_nil]
      · simp [levAux_cons_nil]
      · have h3 := ihx.2.2.1 c
        rw [levAux_cons_cons]
        simp only [levAux_nil, levAux_cons_nil, levAux_nil_right,
          List.length_cons, List.length_nil] at *
        split_ifs with hc
        · omega
        · omega
      · rw [levAux_cons_cons]
        simp only [levAux_nil, levAux_cons_nil, levAux_nil_right,
          List.length_cons, List.length_nil] at *
        split_ifs with hc
        · omega
        · omega
    | x :: xs', y :: ys' =>
      have hxy : (x :: xs').length + ys'.length ≤ N := by simp at h ⊢; omega
      have hyx : xs'.length + (y :: ys').length ≤ N := by simp at h ⊢; omega
      have ih1 := ih (x :: xs') ys' hxy
      have ih2 := ih xs' (y :: ys') hyx
      refine ⟨?_, ?_, ?_, ?_⟩ <;> intro c
      · -- levAux (x::xs') (y::ys') ≤ levAux (c::x::xs') (y::ys') + 1
        have h1 := ih1.2.2.2 y
        have h2 := ih1.1 c
        rw [levAux_cons_cons c y (x :: xs') ys']
        split_ifs with hc
        · omega
        · omega
      · -- levAux (c::x::xs') (y::ys') ≤ levAux (x::xs') (y::ys') + 1
        have h1 := ih1.2.2.1 y
        rw [levAux_cons_cons c y (x :: xs') ys']
        split_ifs with hc
        · omega
        · omega
      · -- levAux (x::xs') (y::ys') ≤ levAux (x::xs') (c::y::ys') + 1
        have h1 := ih2.2.1 x
        have h2 := ih2.2.2.1 c
        rw [levAux_cons_cons x c xs' (y :: ys')]
        split_ifs with hc
        · omega
        · omega
      · -- levAux (x::xs') (c::y::ys') ≤ levAux (x::xs') (y::ys') + 1
        have h1 := ih2.1 x
        rw [levAux_cons_cons x c xs' (y :: ys')]
        split_ifs with hc
        · omega
        · omega

theorem levAux_le_cons_left (xs ys : List Char) (a : Char) :
    levAux xs ys ≤ levAux (a :: xs) ys + 1 :=
  (levAux_adj (xs.length + ys.length) xs ys le_rfl).1 a

theorem levAux_le_cons_right (xs ys : List Char) (b : Char) :
    levAux xs ys ≤ levAux xs (b :: ys) + 1 :=
  (levAux_adj (xs.length + ys.length) xs ys le_rfl).2.2.1 b

/-- An edit script of exactly the cost computed by the recurrence exists. -/
theorem edit_nil_right : ∀ xs : List Char, Edit xs [] xs.length := by
  intro xs
  induction xs with
  | nil => exact Edit.nil
  | cons x xs ihx => exact Edit.del x ihx

theorem edit_nil_left : ∀ ys : List Char, Edit [] ys ys.length := by
  intro ys
  induction ys with
  | nil => exact Edit.nil
  | cons y ys ihy => exact Edit.ins y ihy

theorem edit_exists :
    ∀ N xs ys, xs.length + ys.length ≤ N → Edit xs ys (levAux xs ys) := by
  intro N
  induction N with
  | zero =>
    intro xs ys h
    match xs, ys with
    | [], [] => exact Edit.nil
    | [], y :: ys' => simp at h
    | x :: xs', _ => simp at h
  | succ N ih =>
    intro xs ys h
    match xs, ys with
    | [], ys => rw [levAux_nil]; exact edit_nil_left ys
    | x :: xs', [] => rw [levAux_cons_nil]; exact Edit.del x (edit_nil_right xs')
    | x :: xs', y :: ys' =>
      rw [levAux_cons_cons]
      by_cases hc : x = y
      · rw [if_pos hc]
        subst hc
        exact Edit.keep x (ih xs' ys' (by simp at h ⊢; omega))
      · rw [if_neg hc]
        have e1 := ih xs' ys' (by simp at h ⊢; omega)
        have e2 := ih (x :: xs') ys' (by simp at h ⊢; omega)
        have e3 := ih xs' (y :: ys') (by simp at h ⊢; omega)
        have hmin : min (levAux xs' ys') (min (levAux (x :: xs') ys') (levAux xs' (y :: ys'))) =
            levAux xs' ys' ∨
            min (levAux xs' ys') (min (levAux (x :: xs') ys') (levAux xs' (y :: ys'))) =
            levAux (x :: xs') ys' ∨
            min (levAux xs' ys') (min (levAux (x :: xs') ys') (levAux xs' (y :: ys'))) =
            levAux xs' (y :: ys') := by omega
        rcases hmin with hm | hm | hm <;> rw [hm, Nat.add_comm]
        · exact Edit.subst hc e1
        · exact Edit.ins y e2
        · exact Edit.del x e3

/-- The recurrence value is a lower bound on the cost of every edit script. -/
theorem edit_min {xs ys : List Char} {n : Nat} (h : Edit xs ys n) :
    levAux xs ys ≤ n := by
  induction h with
  | nil => simp [levAux_nil]
  | keep x h ih => rw [levAux_cons_cons, if_pos rfl]; exact ih
  | subst hne h ih =>
    rw [levAux_cons_cons, if_neg hne]
    omega
  | ins y h ih =>
    rename_i xs' ys' n'
    match xs' with
    | [] => simp only [levAux_nil] at *; simp; omega
    | x :: xs'' =>
      rw [levAux_cons_cons]
      split_ifs with hc
      · have := levAux_le_cons_left xs'' ys' x
        omega
      · omega
  | del x h ih =>
    rename_i xs' ys' n'
    match ys' with
    | [] => simp only [levAux_nil_right, levAux_cons_nil, List.length_cons] at *; omega
    | y :: ys'' =>
      rw [levAux_cons_cons]
      split_ifs with hc
      · have := levAux_le_cons_right xs' ys'' y
        omega
      · omega

/-- The recurrence value never exceeds the length of the longer string. -/
theorem levAux_le_max :
    ∀ N xs ys, xs.length + ys.length ≤ N →
      levAux xs ys ≤ max xs.length ys.length := by
  intro N
  induction N with
  | zero =>
    intro xs ys h
    match xs, ys with
    | [], [] => simp [levAux_nil]
    | [], y :: ys' => simp at h
    | x :: xs', _ => simp at h
  | succ N ih =>
    intro xs ys h
    match xs, ys with
    | [], ys => simp [levAux_nil]
    | x :: xs', [] => simp [levAux_cons_nil]
    | x :: xs', y :: ys' =>
      have e1 := ih xs' ys' (by simp at h ⊢; omega)
      rw [levAux_cons_cons]
      split_ifs with hc
      · simp at e1 ⊢; omega
      · simp at e1 ⊢; omega

/-- Appending an equal character on the right preserves edit scripts. -/
theorem edit_snoc_keep {xs ys : List Char} {n : Nat} (c : Char) (h : Edit xs ys n) :
    Edit (xs ++ [c]) (ys ++ [c]) n := by
  induction h with
  | nil => exact Edit.keep c Edit.nil
  | keep x h ih => exact Edit.keep x ih
  | subst hne h ih => exact Edit.subst hne ih
  | ins y h ih => exact Edit.ins y ih
  | del x h ih => exact Edit.del x ih

theorem edit_snoc_subst {xs ys : List Char} {n : Nat} {c d : Char}
    (hne : c ≠ d) (h : Edit xs ys n) : Edit (xs ++ [c]) (ys ++ [d]) (n + 1) := by
  induction h with
  | nil => exact Edit.subst hne Edit.nil
  | keep x h ih => exact Edit.keep x ih
  | subst hne' h ih => exact Edit.subst hne' ih
  | ins y h ih => exact Edit.ins y ih
  | del x h ih => exact Edit.del x ih

theorem edit_snoc_ins {xs ys : List Char} {n : Nat} (d : Char) (h : Edit xs ys n) :
    Edit xs (ys ++ [d]) (n + 1) := by
  induction h with
  | nil => exact Edit.ins d Edit.nil
  | keep x h ih => exact Edit.keep x ih
  | subst hne h ih => exact Edit.subst hne ih
  | ins y h ih => exact Edit.ins y ih
  | del x h ih => exact Edit.del x ih

theorem edit_snoc_del {xs ys : List Char} {n : Nat} (c : Char) (h : Edit xs ys n) :
    Edit (xs ++ [c]) ys (n + 1) := by
  induction h with
  | nil => exact Edit.del c Edit.nil
  | keep x h ih => exact Edit.keep x ih
  | subst hne h ih => exact Edit.subst hne ih
  | ins y h ih => exact Edit.ins y ih
  | del x h ih => exact Edit.del x ih

/-- Edit scripts are preserved by reversing both strings. -/
theorem edit_reverse {xs ys : List Char} {n : Nat} (h : Edit xs ys n) :
    Edit xs.reverse ys.reverse n := by
  induction h with
  | nil => exact Edit.nil
  | keep x h ih => simpa using edit_snoc_keep x ih
  | subst hne h ih => simpa using edit_snoc_subst hne ih
  | ins y h ih => simpa using edit_snoc_ins y ih
  | del x h ih => simpa using edit_snoc_del x ih

/-- `levenshteinDistance` is the least cost of an edit script. -/
theorem levenshteinDistance_isLeast (a b : List Char) :
    Edit a b (levenshteinDistance a b) ∧
      ∀ n, Edit a b n → levenshteinDistance a b ≤ n := by
  constructor
  · have h := edit_exists (a.reverse.length + b.reverse.length) a.reverse b.reverse le_rfl
    have h' := edit_reverse h
    simpa [levenshteinDistance] using h'
  · intro n hn
    exact edit_min (edit_reverse hn)

theorem levenshteinDistance_le_max (a b : List Char) :
    levenshteinDistance a b ≤ max a.length b.length := by
  have := levAux_le_max (a.reverse.length + b.reverse.length) a.reverse b.reverse le_rfl
  simpa [levenshteinDistance] using this

theorem scan_exact_first (n : List Char) :
    ∀ (pre : List (RadarVolume × RadarData)) (p : RadarVolume × RadarData)
      (post : List (RadarVolume × RadarData)) (best : Option (PriorRadarBlip × ℚ)),
      (∀ q ∈ pre, n ≠ normalizeBlipName q.2.name) →
      n = normalizeBlipName p.2.name →
      scanEntries n (pre ++ p :: post) best = some (entryToBlip p.1 p.2) := by
  intro pre
  induction pre with
  | nil =>
    intro p post best _ hp
    simp [scanEntries, hp]
  | cons q pre ih =>
    intro p post best hpre hp
    have hq : n ≠ normalizeBlipName q.2.name := hpre q (by simp)
    simp only [List.cons_append, scanEntries, if_neg hq]
    exact ih p post _ (fun r hr => hpre r (by simp [hr])) hp

theorem scan_no_exact (n : List Char) :
    ∀ (l : List (RadarVolume × RadarData)) (best : Option (PriorRadarBlip × ℚ)),
      (∀ q ∈ l, n ≠ normalizeBlipName q.2.name) →
      scanEntries n l best = (l.foldl (stepBest n) best).map Prod.fst := by
  intro l
  induction l with
  | nil => intro best _; rfl
  | cons q l ih =>
    intro best h
    have hq : n ≠ normalizeBlipName q.2.name := h q (by simp)
    simp only [scanEntries, if_neg hq, List.foldl_cons]
    exact ih _ (fun r hr => h r (by simp [hr]))

theorem stepBest_cases (n : List Char) (best : Option (PriorRadarBlip × ℚ))
    (q : RadarVolume × RadarData) :
    stepBest n best q = best ∨
      (stepBest n best q = some (entryToBlip q.1 q.2, simOf n q) ∧
        SIMILARITY_THRESHOLD ≤ simOf n q) := by
  by_cases h1 : SIMILARITY_THRESHOLD ≤ similarityScore n (normalizeBlipName q.2.name)
  · cases best with
    | none =>
      right
      constructor
      · simp only [stepBest]
        rw [if_pos h1]
        rfl
      · exact h1
    | some b =>
      rcases b with ⟨be, bs⟩
      by_cases h2 : bs < similarityScore n (normalizeBlipName q.2.name)
      · right
        constructor
        · simp only [stepBest]
          rw [if_pos h1, if_pos h2]
          rfl
        · exact h1
      · left
        simp only [stepBest]
        rw [if_pos h1, if_neg h2]
  · left
    simp only [stepBest]
    rw [if_neg h1]

theorem foldBest_below (n : List Char) :
    ∀ (l : List (RadarVolume × RadarData)) (best : Option (PriorRadarBlip × ℚ)),
      (∀ q ∈ l, simOf n q < SIMILARITY_THRESHOLD) →
      l.foldl (stepBest n) best = best := by
  intro l
  induction l with
  | nil => intro best _; rfl
  | cons q l ih =>
    intro best h
    have hq : ¬ SIMILARITY_THRESHOLD ≤ similarityScore n (normalizeBlipName q.2.name) :=
      not_le.mpr (h q (by simp))
    simp only [List.foldl_cons, stepBest, if_neg hq]
    exact ih best (fun r hr => h r (by simp [hr]))

theorem foldBest_keep (n : List Char) :
    ∀ (post : List (RadarVolume × RadarData)) (bl : PriorRadarBlip) (s : ℚ),
      (∀ q ∈ post, simOf n q ≤ s) →
      post.foldl (stepBest n) (some (bl, s)) = some (bl, s) := by
  intro post
  induction post with
  | nil => intro bl s _; rfl
  | cons q post ih =>
    intro bl s h
    have hq : ¬ s < similarityScore n (normalizeBlipName q.2.name) :=
      not_lt.mpr (h q (by simp))
    have hstep : stepBest n (some (bl, s)) q = some (bl, s) := by
      simp only [stepBest]
      by_cases h1 : SIMILARITY_THRESHOLD ≤ similarityScore n (normalizeBlipName q.2.name)
      · rw [if_pos h1, if_neg hq]
      · rw [if_neg h1]
    simp only [List.foldl_cons, hstep]
    exact ih bl s (fun r hr => h r (by simp [hr]))

theorem foldBest_mem (n : List Char) :
    ∀ (l : List (RadarVolume × RadarData)) (best : Option (PriorRadarBlip × ℚ)),
      l.foldl (stepBest n) best = best ∨
        ∃ q ∈ l, l.foldl (stepBest n) best = some (entryToBlip q.1 q.2, simOf n q) := by
  intro l
  induction l with
  | nil => intro best; left; rfl
  | cons q l ih =>
    intro best
    rcases ih (stepBest n best q) with h | ⟨r, hr, h⟩
    · rcases stepBest_cases n best q with hs | ⟨hs, _⟩
      · left
        rw [List.foldl_cons, hs]
        rw [hs] at h
        exact h
      · right
        refine ⟨q, by simp, ?_⟩
        rw [List.foldl_cons, h, hs]
    · right
      exact ⟨r, by simp [hr], by rw [List.foldl_cons]; exact h⟩

theorem scan_first_max (n : List Char)
    (pre : List (RadarVolume × RadarData)) (p : RadarVolume × RadarData)
    (post : List (RadarVolume × RadarData))
    (hne : ∀ q ∈ pre ++ p :: post, n ≠ normalizeBlipName q.2.name)
    (hT : SIMILARITY_THRESHOLD ≤ simOf n p)
    (hpre : ∀ q ∈ pre, simOf n q < simOf n p)
    (hpost : ∀ q ∈ post, simOf n q ≤ simOf n p) :
    scanEntries n (pre ++ p :: post) none = some (entryToBlip p.1 p.2) := by
  have hT2 : SIMILARITY_THRESHOLD ≤ similarityScore n (normalizeBlipName p.2.name) := hT
  rw [scan_no_exact n _ none hne, List.foldl_append]
  rcases foldBest_mem n pre none with hr | ⟨q, hq, hr⟩
  · rw [hr]
    simp only [List.foldl_cons]
    have hstep : stepBest n none p = some (entryToBlip p.1 p.2, simOf n p) := by
      simp only [stepBest]
      rw [if_pos hT2]
      rfl
    rw [hstep, foldBest_keep n post _ _ hpost]
    rfl
  · rw [hr]
    simp only [List.foldl_cons]
    have hlt : simOf n q < similarityScore n (normalizeBlipName p.2.name) := hpre q hq
    have hstep : stepBest n (some (entryToBlip q.1 q.2, simOf n q)) p =
        some (entryToBlip p.1 p.2, simOf n p) := by
      simp only [stepBest]
      rw [if_pos hT2, if_pos hlt]
      rfl
    rw [hstep, foldBest_keep n post _ _ hpost]
    rfl

theorem scan_all_below (n : List Char) (l : List (RadarVolume × RadarData))
    (hne : ∀ q ∈ l, n ≠ normalizeBlipName q.2.name)
    (hlow : ∀ q ∈ l, simOf n q < SIMILARITY_THRESHOLD) :
    scanEntries n l none = none := by
  rw [scan_no_exact n l none hne, foldBest_below n l none hlow]
  rfl

theorem insertVol_perm (v : RadarVolume) :
    ∀ l, (insertVol v l).Perm (v :: l) := by
  intro l
  induction l with
  | nil => exact List.Perm.refl _
  | cons w ws ih =>
    by_cases h : w.num ≤ v.num
    · simp only [insertVol, if_pos h]
      exact List.Perm.refl _
    · simp only [insertVol, if_neg h]
      exact (List.Perm.cons w ih).trans (List.Perm.swap v w ws)

theorem sortVolumes_perm : ∀ l, (sortVolumes l).Perm l := by
  intro l
  induction l with
  | nil => exact List.Perm.refl _
  | cons v vs ih =>
    exact (insertVol_perm v (sortVolumes vs)).trans (List.Perm.cons v ih)

theorem insertVol_sorted (v : RadarVolume) :
    ∀ l, l.Pairwise (fun a b => b.num ≤ a.num) →
      (insertVol v l).Pairwise (fun a b => b.num ≤ a.num) := by
  intro l
  induction l with
  | nil => intro _; simp [insertVol]
  | cons w ws ih =>
    intro hs
    rcases List.pairwise_cons.mp hs with ⟨hw, hws⟩
    by_cases h : w.num ≤ v.num
    · simp only [insertVol, if_pos h]
      refine List.pairwise_cons.mpr ⟨?_, hs⟩
      intro x hx
      rcases List.mem_cons.mp hx with hx | hx
      · subst hx; exact h
      · exact le_trans (hw x hx) h
    · simp only [insertVol, if_neg h]
      refine List.pairwise_cons.mpr ⟨?_, ih hws⟩
      intro x hx
      have hx' := (insertVol_perm v ws).mem_iff.mp hx
      rcases List.mem_cons.mp hx' with hx' | hx'
      · subst hx'; omega
      · exact hw x hx'

theorem sortVolumes_sorted :
    ∀ l, (sortVolumes l).Pairwise (fun a b => b.num ≤ a.num) := by
  intro l
  induction l with
  | nil => simp [sortVolumes]
  | cons v vs ih => exact insertVol_sorted v (sortVolumes vs) ih

/-- In a nonempty filtered situation, a list with a witness of `P` splits at
its first element satisfying `P`. -/
theorem exists_first_such {α : Type} (P : α → Prop) :
    ∀ L : List α, (∃ b ∈ L, P b) →
      ∃ pre b post, L = pre ++ b :: post ∧ P b ∧ ∀ b' ∈ pre, ¬ P b' := by
  intro L
  induction L with
  | nil => simp
  | cons a L ih =>
    intro hex
    by_cases hPa : P a
    · exact ⟨[], a, L, rfl, hPa, by simp⟩
    · have hex' : ∃ b ∈ L, P b := by
        rcases hex with ⟨b, hb, hPb⟩
        rcases List.mem_cons.mp hb with hb | hb
        · subst hb; exact absurd hPb hPa
        · exact ⟨b, hb, hPb⟩
      rcases ih hex' with ⟨pre, b, post, hdec, hPb, hpre⟩
      refine ⟨a :: pre, b, post, by simp [hdec], hPb, ?_⟩
      intro b' hb'
      rcases List.mem_cons.mp hb' with hb' | hb'
      · subst hb'; exact hPa
      · exact hpre b' hb'

theorem dropWhile_dropWhile (p : Char → Bool) (l : List Char) :
    (l.dropWhile p).dropWhile p = l.dropWhile p := by
  induction l with
  | nil => rfl
  | cons c cs ih =>
    by_cases h : p c
    · simp [List.dropWhile_cons, h, ih]
    · simp [List.dropWhile_cons, h]

theorem head_dropWhile_false (p : Char → Bool) :
    ∀ l : List Char, ∀ x, (l.dropWhile p).head? = some x → p x = false := by
  intro l
  induction l with
  | nil => intro x h; simp at h
  | cons c cs ih =>
    intro x h
    by_cases hc : p c
    · rw [List.dropWhile_cons, if_pos hc] at h
      exact ih x h
    · rw [List.dropWhile_cons, if_neg hc] at h
      simp at h
      subst h
      exact Bool.eq_false_iff.mpr hc

theorem dropWhile_eq_self_of_leading (p : Char → Bool) {l m : List Char}
    (h : m <+: l) (hl : l.dropWhile p = l) : m.dropWhile p = m := by
  cases m with
  | nil => rfl
  | cons c cs =>
    rcases h with ⟨t, ht⟩
    have hc : p c = false := by
      have := head_dropWhile_false p l c
      rw [hl] at this
      apply this
      rw [← ht]
      rfl
    rw [List.dropWhile_cons, hc]
    simp

theorem trim_no_trailing (l : List Char) :
    (trimChars l).reverse.dropWhile isWs = (trimChars l).reverse := by
  unfold trimChars
  rw [List.reverse_reverse]
  exact dropWhile_dropWhile isWs _

theorem trim_no_leading (l : List Char) :
    (trimChars l).dropWhile isWs = trimChars l := by
  unfold trimChars
  apply dropWhile_eq_self_of_leading isWs (l := l.dropWhile isWs)
  · have hsuf : (l.dropWhile isWs).reverse.dropWhile isWs <:+ (l.dropWhile isWs).reverse :=
      List.dropWhile_suffix isWs
    have := List.reverse_prefix.mpr hsuf
    simpa using this
  · exact dropWhile_dropWhile isWs l

theorem trimChars_eq_self {l : List Char}
    (h1 : l.dropWhile isWs = l) (h2 : l.reverse.dropWhile isWs = l.reverse) :
    trimChars l = l := by
  unfold trimChars
  rw [h1, h2, List.reverse_reverse]

theorem mem_trimChars {c : Char} {l : List Char} (h : c ∈ trimChars l) : c ∈ l := by
  unfold trimChars at h
  rw [List.mem_reverse] at h
  have h2 := (List.dropWhile_sublist (l := (l.dropWhile isWs).reverse) isWs).subset h
  rw [List.mem_reverse] at h2
  exact (List.dropWhile_sublist isWs).subset h2

theorem mem_stripOneSuffix {c : Char} {suf l : List Char}
    (h : c ∈ stripOneSuffix suf l) : c ∈ l := by
  unfold stripOneSuffix at h
  split_ifs at h
  · exact List.take_subset _ l h
  · exact h

theorem mem_squashAux {c : Char} :
    ∀ (l : List Char) (prev : Bool), c ∈ squashAux prev l →
      c = ' ' ∨ (c ∈ l ∧ isWs c = false) := by
  intro l
  induction l with
  | nil => intro prev h; exact absurd h (List.not_mem_nil c)
  | cons d ds ih =>
    intro prev h
    by_cases hd : isWs d
    · rw [squashAux, if_pos hd] at h
      cases prev with
      | true =>
        rw [if_pos rfl] at h
        rcases ih true h with h' | ⟨hmem, hws⟩
        · exact Or.inl h'
        · exact Or.inr ⟨by simp [hmem], hws⟩
      | false =>
        rw [if_neg Bool.false_ne_true] at h
        simp only [List.mem_cons] at h
        rcases h with h | h
        · exact Or.inl h
        · rcases ih true h with h' | ⟨hmem, hws⟩
          · exact Or.inl h'
          · exact Or.inr ⟨by simp [hmem], hws⟩
    · rw [squashAux, if_neg hd] at h
      simp only [List.mem_cons] at h
      rcases h with h | h
      · subst h
        exact Or.inr ⟨by simp, Bool.eq_false_iff.mpr hd⟩
      · rcases ih false h with h' | ⟨hmem, hws⟩
        · exact Or.inl h'
        · exact Or.inr ⟨by simp [hmem], hws⟩

theorem char_toNat_ofNat_lower (n : Nat) (h1 : 97 ≤ n) (h2 : n ≤ 122) :
    (Char.ofNat n).toNat = n := by
  have hv : n.isValidChar := Or.inl (by omega)
  simp [Char.ofNat, hv, Char.ofNatAux, Char.toNat, UInt32.toNat, BitVec.toNat_ofNat]

theorem toLower_toLower (c : Char) :
    Char.toLower (Char.toLower c) = Char.toLower c := by
  simp only [Char.toLower]
  split_ifs with h1 h2
  · exfalso
    have h3 := char_toNat_ofNat_lower (c.toNat + 32) (by omega) (by omega)
    rw [h3] at h2
    omega
  · rfl
  · rfl

theorem toLower_eq_dot {c : Char} (h : Char.toLower c = '.') : c = '.' := by
  by_cases h1 : c.toNat ≥ 65 ∧ c.toNat ≤ 90
  · exfalso
    rw [Char.toLower, if_pos h1] at h
    have h3 := char_toNat_ofNat_lower (c.toNat + 32) (by omega) (by omega)
    have h4 := congrArg Char.toNat h
    rw [h3] at h4
    have : ('.' : Char).toNat = 46 := by decide
    omega
  · rwa [Char.toLower, if_neg h1] at h

theorem toLower_ws {c : Char} (h : isWs c = true) : Char.toLower c = c := by
  simp only [isWs, Bool.or_eq_true, decide_eq_true_eq] at h
  rcases h with ((((h | h) | h) | h) | h) | h <;> subst h <;> decide

theorem not_ws_of_wordChar {c : Char} (h : isWordChar c = true) : isWs c = false := by
  by_contra hws
  rw [Bool.not_eq_false] at hws
  simp only [isWs, Bool.or_eq_true, decide_eq_true_eq] at hws
  rcases hws with ((((h' | h') | h') | h') | h') | h' <;> subst h' <;>
    exact absurd h (by decide)

theorem map_toLower_eq_self {l : List Char} (h : ∀ c ∈ l, Char.toLower c = c) :
    l.map Char.toLower = l := by
  induction l with
  | nil => rfl
  | cons c cs ih =>
    simp only [List.map_cons, h c (by simp), List.cons.injEq, true_and]
    exact ih (fun d hd => h d (by simp [hd]))

theorem squash_true_head :
    ∀ l : List Char, ∀ x, (squashAux true l).head? = some x → isWs x = false := by
  intro l
  induction l with
  | nil => intro x h; simp [squashAux] at h
  | cons d ds ih =>
    intro x h
    by_cases hd : isWs d
    · rw [squashAux, if_pos hd, if_pos rfl] at h
      exact ih x h
    · rw [squashAux, if_neg hd] at h
      simp at h
      subst h
      exact Bool.eq_false_iff.mpr hd

theorem squash_true_eq_false {l : List Char}
    (h : ∀ x, l.head? = some x → isWs x = false) :
    squashAux true l = squashAux false l := by
  cases l with
  | nil => rfl
  | cons d ds =>
    have hd : isWs d = false := h d rfl
    rw [squashAux, squashAux, if_neg (by simp [hd]), if_neg (by simp [hd])]

theorem squash_chain :
    ∀ (l : List Char) (prev : Bool),
      (squashAux prev l).Chain' (fun a b => ¬(isWs a = true ∧ isWs b = true)) := by
  intro l
  induction l with
  | nil => intro prev; simp [squashAux]
  | cons d ds ih =>
    intro prev
    by_cases hd : isWs d
    · rw [squashAux, if_pos hd]
      cases prev with
      | true => rw [if_pos rfl]; exact ih true
      | false =>
        rw [if_neg Bool.false_ne_true]
        rw [List.chain'_cons']
        refine ⟨?_, ih true⟩
        intro y hy
        have := squash_true_head ds y hy
        simp [this]
    · rw [squashAux, if_neg hd]
      rw [List.chain'_cons']
      refine ⟨?_, ih false⟩
      intro y _
      simp [hd]

theorem squash_id :
    ∀ l : List Char, (∀ c ∈ l, isWs c = true → c = ' ') →
      l.Chain' (fun a b => ¬(isWs a = true ∧ isWs b = true)) →
      squashAux false l = l := by
  intro l
  induction l with
  | nil => intro _ _; rfl
  | cons d ds ih =>
    intro hsp hch
    rcases List.chain'_cons'.mp hch with ⟨hhead, htail⟩
    by_cases hd : isWs d
    · have hd' : d = ' ' := hsp d (by simp) hd
      rw [squashAux, if_pos hd, if_neg Bool.false_ne_true]
      have hnext : ∀ x, ds.head? = some x → isWs x = false := by
        intro x hx
        have := hhead x hx
        rw [Bool.eq_false_iff]
        intro hxw
        exact this ⟨hd, hxw⟩
      rw [squash_true_eq_false hnext, ih (fun c hc => hsp c (by simp [hc])) htail, hd']
    · rw [squashAux, if_neg hd,
        ih (fun c hc => hsp c (by simp [hc])) htail]

theorem stripOneSuffix_eq_self {suf l : List Char}
    (hdot : '.' ∈ suf) (hl : '.' ∉ l) : stripOneSuffix suf l = l := by
  unfold stripOneSuffix
  rw [if_neg]
  intro hew
  unfold endsWithCI at hew
  rw [Bool.and_eq_true, beq_iff_eq] at hew
  have hmem : '.' ∈ (l.map Char.toLower).drop (l.length - suf.length) := by
    rw [hew.2]; exact hdot
  have hmem2 := List.mem_of_mem_drop hmem
  rcases List.mem_map.mp hmem2 with ⟨a, ha, hla⟩
  exact hl (toLower_eq_dot hla ▸ ha)

theorem normalize_eq_self_of_std {l : List Char} (h : StdForm l) :
    normalizeBlipName l = l := by
  obtain ⟨hgood, hlow, hch, hld, htd⟩ := h
  have hdot : '.' ∉ l := by
    intro hd
    rcases hgood '.' hd with hw | hsp
    · exact absurd hw (by decide)
    · exact absurd hsp (by decide)
  have hmap : l.map Char.toLower = l := map_toLower_eq_self hlow
  have htrim : trimChars l = l := trimChars_eq_self hld htd
  have hstrip : ∀ suf, '.' ∈ suf → stripOneSuffix suf l = l := fun suf hs =>
    stripOneSuffix_eq_self hs hdot
  have hfil : l.filter (fun c => isWordChar c || isWs c) = l := by
    rw [List.filter_eq_self]
    intro c hc
    rcases hgood c hc with hw | hsp
    · simp [hw]
    · subst hsp; decide
  have hsq : collapseWs l = l := by
    apply squash_id l
    · intro c hc hcw
      rcases hgood c hc with hw | hsp
      · rw [not_ws_of_wordChar hw] at hcw
        exact absurd hcw (by decide)
      · exact hsp
    · exact hch
  simp only [normalizeBlipName]
  rw [hmap, htrim, hstrip _ (by decide), hstrip _ (by decide), hstrip _ (by decide),
    hstrip _ (by decide), hfil, hsq, htrim]

theorem normalize_eq_core (s : List Char) :
    normalizeBlipName s = trimChars (collapseWs (normCore s)) := rfl

theorem trimChars_prefix_dropWhile (l : List Char) :
    trimChars l <+: l.dropWhile isWs := by
  unfold trimChars
  have h3 := List.dropWhile_suffix (l := (l.dropWhile isWs).reverse) isWs
  have h4 := List.reverse_prefix.mpr h3
  simpa using h4

theorem chain_trimChars_collapse (m : List Char) :
    (trimChars (collapseWs m)).Chain' (fun a b => ¬(isWs a = true ∧ isWs b = true)) := by
  have h1 : (collapseWs m).dropWhile isWs <:+ collapseWs m := List.dropWhile_suffix isWs
  have h2 := List.Chain'.suffix (squash_chain m false) h1
  exact List.Chain'.prefix h2 (trimChars_prefix_dropWhile (collapseWs m))

set_option maxHeartbeats 2000000 in
theorem stdForm_normalize (s : List Char) : StdForm (normalizeBlipName s) := by
  have hmem : ∀ c ∈ normalizeBlipName s,
      c = ' ' ∨ ((isWordChar c || isWs c) = true ∧ isWs c = false ∧
        ∃ a, c = Char.toLower a) := by
    intro c hc
    rw [normalize_eq_core] at hc
    have hc2 : c ∈ squashAux false (normCore s) := mem_trimChars hc
    rcases mem_squashAux (normCore s) false hc2 with hsp | ⟨hc3, hnw⟩
    · exact Or.inl hsp
    · rw [normCore] at hc3
      rcases List.mem_filter.mp hc3 with ⟨hc4, hp⟩
      have hc5 := mem_stripOneSuffix (mem_stripOneSuffix (mem_stripOneSuffix
        (mem_stripOneSuffix hc4)))
      have hc6 := mem_trimChars hc5
      rcases List.mem_map.mp hc6 with ⟨a, _, hla⟩
      exact Or.inr ⟨hp, hnw, a, hla.symm⟩
  refine ⟨?_, ?_, ?_, ?_, ?_⟩
  · intro c hc
    rcases hmem c hc with hsp | ⟨hp, hnw, _⟩
    · exact Or.inr hsp
    · left
      rcases Bool.eq_false_or_eq_true (isWordChar c) with hh | hh
      · exact hh
      · rw [hh, Bool.false_or] at hp
        rw [hnw] at hp
        exact absurd hp (by decide)
  · intro c hc
    rcases hmem c hc with hsp | ⟨_, _, a, ha⟩
    · subst hsp; decide
    · subst ha; exact toLower_toLower a
  · rw [normalize_eq_core]
    exact chain_trimChars_collapse (normCore s)
  · rw [normalize_eq_core]
    exact trim_no_leading (collapseWs (normCore s))
  · rw [normalize_eq_core]
    exact trim_no_trailing (collapseWs (normCore s))

/-- Normalisation is idempotent. -/
theorem normalizeBlipName_idem (s : List Char) :
    normalizeBlipName (normalizeBlipName s) = normalizeBlipName s :=
  normalize_eq_self_of_std (stdForm_normalize s)

theorem normalize_of_ws {q : List Char} (h : ∀ c ∈ q, isWs c = true) :
    normalizeBlipName q = [] := by
  have hmap : ∀ c ∈ q.map Char.toLower, isWs c = true := by
    intro c hc
    rcases List.mem_map.mp hc with ⟨a, ha, rfl⟩
    rw [toLower_ws (h a ha)]
    exact h a ha
  have hdw : (q.map Char.toLower).dropWhile isWs = [] :=
    List.dropWhile_eq_nil_iff.mpr hmap
  have htrim : trimChars (q.map Char.toLower) = [] := by
    unfold trimChars
    rw [hdw]
    rfl
  simp only [normalizeBlipName]
  rw [htrim]
  rfl

theorem similarityScore_nil_left {nb : List Char} (h : nb ≠ []) :
    similarityScore [] nb = 0 := by
  have hlen : nb.length ≠ 0 := fun hh => h (List.length_eq_zero.mp hh)
  have hlev : levenshteinDistance [] nb = nb.length := by
    simp [levenshteinDistance, levAux_nil]
  simp only [similarityScore, List.length_nil, Nat.zero_max]
  rw [if_neg hlen, hlev]
  have hq : (nb.length : ℚ) ≠ 0 := by exact_mod_cast hlen
  rw [div_self hq]
  ring

theorem mem_volumePairs {vols : List RadarVolume} {q : RadarVolume × RadarData}
    (h : q ∈ volumePairs vols) : q.1 ∈ vols ∧ q.2 ∈ q.1.data := by
  unfold volumePairs at h
  rcases List.mem_flatMap.mp h with ⟨v, hv, hq⟩
  rcases List.mem_map.mp hq with ⟨b, hb, rfl⟩
  exact ⟨(sortVolumes_perm vols).subset hv, hb⟩

theorem isWordChar_eq (c : Char) : isWordChar c = (c.isAlphanum || c = '_') := by
  simp only [isWordChar, Char.isAlphanum, Char.isAlpha, Char.isUpper, Char.isLower,
    Char.isDigit]
  rw [Bool.eq_iff_iff]
  simp only [Bool.or_eq_true, Bool.and_eq_true, decide_eq_true_eq, Char.le_def,
    UInt32.le_def, BitVec.le_def, Char.ext_iff, UInt32.ext_iff, BitVec.toNat_eq]
  have e1 : 'a'.val.toBitVec.toNat = 97 := rfl
  have e2 : 'z'.val.toBitVec.toNat = 122 := rfl
  have e3 : 'A'.val.toBitVec.toNat = 65 := rfl
  have e4 : 'Z'.val.toBitVec.toNat = 90 := rfl
  have e5 : '0'.val.toBitVec.toNat = 48 := rfl
  have e6 : '9'.val.toBitVec.toNat = 57 := rfl
  have e7 : '_'.val.toNat = 95 := rfl
  have e8 : ((65 : UInt32)).toBitVec.toNat = 65 := rfl
  have e9 : ((90 : UInt32)).toBitVec.toNat = 90 := rfl
  have e10 : ((97 : UInt32)).toBitVec.toNat = 97 := rfl
  have e11 : ((122 : UInt32)).toBitVec.toNat = 122 := rfl
  have e12 : ((48 : UInt32)).toBitVec.toNat = 48 := rfl
  have e13 : ((57 : UInt32)).toBitVec.toNat = 57 := rfl
  have e14 : c.val.toNat = c.val.toBitVec.toNat := rfl
  simp only [e1, e2, e3, e4, e5, e6, e7, e8, e9, e10, e11, e12, e13, e14]
  omega

theorem endsWithCI_eq_isSuffixOf {l suf : List Char} (h : l.map Char.toLower = l) :
    endsWithCI l suf = List.isSuffixOf suf l := by
  rw [Bool.eq_iff_iff]
  unfold endsWithCI
  rw [h, Bool.and_eq_true, beq_iff_eq, List.isSuffixOf_iff_suffix, decide_eq_true_eq]
  constructor
  · rintro ⟨_, h2⟩
    exact List.suffix_iff_eq_drop.mpr h2.symm
  · intro hs
    exact ⟨hs.length_le, (List.suffix_iff_eq_drop.mp hs).symm⟩

theorem stripOneSuffix_eq_take {l : List Char} (suf : List Char)
    (h : l.map Char.toLower = l) :
    stripOneSuffix suf l =
      if List.isSuffixOf suf l then l.take (l.length - suf.length) else l := by
  unfold stripOneSuffix
  rw [endsWithCI_eq_isSuffixOf h]

theorem lower_fixed_take {l : List Char} (h : l.map Char.toLower = l) (n : Nat) :
    (l.take n).map Char.toLower = l.take n := by
  rw [List.map_take, h]

theorem lower_fixed_strip {l : List Char} (suf : List Char)
    (h : l.map Char.toLower = l) :
    (stripOneSuffix suf l).map Char.toLower = stripOneSuffix suf l := by
  unfold stripOneSuffix
  split_ifs
  · exact lower_fixed_take h _
  · exact h

theorem lower_fixed_trim_lower (s : List Char) :
    (trimChars (s.map Char.toLower)).map Char.toLower =
      trimChars (s.map Char.toLower) := by
  apply map_toLower_eq_self
  intro c hc
  rcases List.mem_map.mp (mem_trimChars hc) with ⟨a, _, rfl⟩
  exact toLower_toLower a

end Radar

namespace Store

theorem save_step (st : StoreState) (sub : BlipSubmission) (hlock : st.lock = false) :
    (saveSubmission st sub false).1 = Except.ok () ∧
    (saveSubmission st sub false).2.file =
      FileState.valid (loadSubmissions st.file ++ [sub]) ∧
    (saveSubmission st sub false).2.lock = false ∧
    (saveSubmission st sub false).2.tmp = none := by
  have hl : ¬ st.lock = true := by rw [hlock]; exact Bool.false_ne_true
  cases hf : st.file <;>
    simp [saveSubmission, hl, hf, loadSubmissions, readAndParse]

theorem saveAll_spec :
    ∀ (subs : List BlipSubmission) (st : StoreState), st.lock = false →
      loadSubmissions (saveAll st subs).file = loadSubmissions st.file ++ subs ∧
      (saveAll st subs).lock = false := by
  intro subs
  induction subs with
  | nil => intro st h; exact ⟨by simp [saveAll], h⟩
  | cons x xs ih =>
    intro st h
    obtain ⟨_, hfile, hlock, _⟩ := save_step st x h
    have hfold : saveAll st (x :: xs) = saveAll (saveSubmission st x false).2 xs := rfl
    rw [hfold]
    obtain ⟨hload, hlk⟩ := ih (saveSubmission st x false).2 hlock
    constructor
    · rw [hload, hfile]
      simp [loadSubmissions, readAndParse]
    · exact hlk

end Store

open Radar Store

/-- C1: starting from an empty (absent) store and appending N records one at
a time via `saveSubmission` with every filesystem write succeeding, a
subsequent `loadSubmissions` returns exactly those N records, field for
field and in append order; each individual append succeeds, adds the given
record at the end, and leaves all previously persisted records unchanged. -/
theorem C1_round_trip_persistence (subs : List BlipSubmission) :
    Store.loadSubmissions (saveAll initState subs).file = subs ∧
    ∀ pre x post, subs = pre ++ x :: post →
      (Store.saveSubmission (saveAll initState pre) x false).1 = Except.ok () ∧
      (Store.saveSubmission (saveAll initState pre) x false).2.file =
        FileState.valid (pre ++ [x]) := by
  have hbase : ∀ l : List BlipSubmission,
      Store.loadSubmissions (saveAll initState l).file = l ∧
      (saveAll initState l).lock = false := by
    intro l
    have h := saveAll_spec l initState rfl
    simpa [initState, Store.loadSubmissions] using h
  refine ⟨(hbase subs).1, ?_⟩
  intro pre x post _
  obtain ⟨hload, hlock⟩ := hbase pre
  obtain ⟨hok, hfile, _, _⟩ := save_step _ x hlock
  exact ⟨hok, by rw [hfile, hload]⟩

theorem C1_round_trip_persistence_witness :
    Store.loadSubmissions (saveAll initState [sampleSubA, sampleSubB]).file =
      [sampleSubA, sampleSubB] ∧
    (Store.saveSubmission (saveAll initState [sampleSubA]) sampleSubB false).2.file =
      FileState.valid [sampleSubA, sampleSubB] :=
  ⟨(C1_round_trip_persistence [sampleSubA, sampleSubB]).1,
   ((C1_round_trip_persistence [sampleSubA, sampleSubB]).2 [sampleSubA] sampleSubB [] rfl).2⟩

/-- C3: the similarity score is `1 − d/maxLen` in exact arithmetic (`1` when
both strings are empty), always lies in `[0, 1]`, and the distance `d`
computed by `levenshteinDistance` is the minimum number of single-character
insertions, deletions and substitutions transforming one string into the
other. -/
theorem C3_similarity_definition (a b : List Char) :
    (Edit a b (levenshteinDistance a b) ∧
      ∀ n, Edit a b n → levenshteinDistance a b ≤ n) ∧
    (a = [] → b = [] → similarityScore a b = 1) ∧
    0 ≤ similarityScore a b ∧ similarityScore a b ≤ 1 ∧
    (max a.length b.length ≠ 0 →
      similarityScore a b =
        1 - (levenshteinDistance a b : ℚ) / (max a.length b.length : ℚ)) := by
  have hbounds : 0 ≤ similarityScore a b ∧ similarityScore a b ≤ 1 := by
    simp only [similarityScore]
    by_cases hm : max a.length b.length = 0
    · rw [if_pos hm]
      norm_num
    · rw [if_neg hm, Nat.cast_max]
      have hle := levenshteinDistance_le_max a b
      have hmpos : 0 < (max a.length b.length : ℚ) := by
        exact_mod_cast Nat.pos_of_ne_zero hm
      have hd0 : 0 ≤ (levenshteinDistance a b : ℚ) / (max a.length b.length : ℚ) :=
        div_nonneg (by positivity) (le_of_lt hmpos)
      have hd1 : (levenshteinDistance a b : ℚ) / (max a.length b.length : ℚ) ≤ 1 :=
        (div_le_one hmpos).mpr (by exact_mod_cast hle)
      constructor <;> linarith
  refine ⟨levenshteinDistance_isLeast a b, ?_, hbounds.1, hbounds.2, ?_⟩
  · intro ha hb
    subst ha; subst hb
    rfl
  · intro hm
    simp only [similarityScore]
    rw [if_neg hm, Nat.cast_max]

theorem C3_similarity_definition_witness :
    similarityScore [] [] = 1 ∧
    similarityScore ("go".data) ("google".data) =
      1 - (levenshteinDistance ("go".data) ("google".data) : ℚ) /
        (max ("go".data.length) ("google".data.length) : ℚ) :=
  ⟨(C3_similarity_definition [] []).2.1 rfl rfl,
   (C3_similarity_definition ("go".data) ("google".data)).2.2.2.2 (by decide)⟩

/-- C5: with no exact normalized match anywhere in the catalog, the scan
returns no-match when every candidate's similarity is below the 0.85
threshold, and otherwise returns the first candidate (in scan order)
attaining the maximum similarity — a candidate with an equal score never
replaces the retained one. -/
theorem C5_threshold_and_ties (vols : List RadarVolume) (query : List Char)
    (hne : ∀ v ∈ vols, ∀ b ∈ v.data,
      normalizeBlipName b.name ≠ normalizeBlipName query) :
    ((∀ q ∈ volumePairs vols,
        simOf (normalizeBlipName query) q < SIMILARITY_THRESHOLD) →
      findPriorRadarMatch vols query = none) ∧
    (∀ pre p post, volumePairs vols = pre ++ p :: post →
      SIMILARITY_THRESHOLD ≤ simOf (normalizeBlipName query) p →
      (∀ q ∈ pre, simOf (normalizeBlipName query) q < simOf (normalizeBlipName query) p) →
      (∀ q ∈ post, simOf (normalizeBlipName query) q ≤ simOf (normalizeBlipName query) p) →
      findPriorRadarMatch vols query = some (entryToBlip p.1 p.2)) := by
  have hne' : ∀ q ∈ volumePairs vols,
      normalizeBlipName query ≠ normalizeBlipName q.2.name := by
    intro q hq he
    obtain ⟨h1, h2⟩ := mem_volumePairs hq
    exact hne q.1 h1 q.2 h2 he.symm
  constructor
  · intro hlow
    exact scan_all_below _ _ hne' hlow
  · intro pre p post hdec hT hp hq
    unfold findPriorRadarMatch
    rw [hdec] at hne' ⊢
    exact scan_first_max _ pre p post hne' hT hp hq

/-- C4: when the same normalized name occurs in two (or more) editions with
distinct ordinals and the query's normalized form equals that name,
`findPriorRadarMatch` returns the entry from the edition with the highest
ordinal among those containing the name, short-circuiting at the first exact
normalized-key equality (the first matching entry of that edition in file
order). -/
theorem C4_exact_match_recency (vols : List RadarVolume) (query : List Char)
    (v1 v2 : RadarVolume)
    (hdist : vols.Pairwise (fun a b => a.num ≠ b.num))
    (hv1 : v1 ∈ vols) (hv2 : v2 ∈ vols)
    (hm1 : ∃ b ∈ v1.data, normalizeBlipName b.name = normalizeBlipName query)
    (hm2 : ∃ b ∈ v2.data, normalizeBlipName b.name = normalizeBlipName query)
    (hlt : v2.num < v1.num)
    (hmax : ∀ v ∈ vols,
      (∃ b ∈ v.data, normalizeBlipName b.name = normalizeBlipName query) →
      v.num ≤ v1.num) :
    ∃ pre b post, v1.data = pre ++ b :: post ∧
      normalizeBlipName b.name = normalizeBlipName query ∧
      (∀ b' ∈ pre, normalizeBlipName b'.name ≠ normalizeBlipName query) ∧
      findPriorRadarMatch vols query = some (entryToBlip v1 b) := by
  obtain ⟨pre, b, post, hdec, hPb, hpre⟩ := @exists_first_such RadarData
    (fun e => normalizeBlipName e.name = normalizeBlipName query) v1.data hm1
  refine ⟨pre, b, post, hdec, hPb, hpre, ?_⟩
  have hperm := sortVolumes_perm vols
  have hv1s : v1 ∈ sortVolumes vols := hperm.mem_iff.mpr hv1
  obtain ⟨P, Q, hS⟩ := List.append_of_mem hv1s
  have hsorted := sortVolumes_sorted vols
  have hdistS : (sortVolumes vols).Pairwise (fun a b => a.num ≠ b.num) :=
    (hperm.pairwise_iff (fun h => Ne.symm h)).mpr hdist
  rw [hS] at hsorted hdistS
  rcases List.pairwise_append.mp hsorted with ⟨_, _, hPle⟩
  rcases List.pairwise_append.mp hdistS with ⟨_, _, hPne⟩
  have hPnomatch : ∀ u ∈ P, ∀ e ∈ u.data,
      normalizeBlipName e.name ≠ normalizeBlipName query := by
    intro u hu e he hmatch
    have h1 : v1.num ≤ u.num := hPle u hu v1 (by simp)
    have h2 : u.num ≠ v1.num := hPne u hu v1 (by simp)
    have h3 : u ∈ vols := by
      apply hperm.subset
      rw [hS]
      exact List.mem_append.mpr (Or.inl hu)
    have h4 := hmax u h3 ⟨e, he, hmatch⟩
    omega
  unfold findPriorRadarMatch volumePairs
  rw [hS, List.flatMap_append, List.flatMap_cons, hdec, List.map_append, List.map_cons]
  have hassoc :
      (P.flatMap fun v => v.data.map fun e => (v, e)) ++
        ((pre.map fun e => (v1, e)) ++ (v1, b) ::
          (post.map fun e => (v1, e)) ++ (Q.flatMap fun v => v.data.map fun e => (v, e)))
      = ((P.flatMap fun v => v.data.map fun e => (v, e)) ++ (pre.map fun e => (v1, e))) ++
        ((v1, b) :: ((post.map fun e => (v1, e)) ++ (Q.flatMap fun v => v.data.map fun e => (v, e)))) := by
    simp [List.append_assoc]
  rw [hassoc]
  apply scan_exact_first
  · intro q hq
    rcases List.mem_append.mp hq with hq | hq
    · rcases List.mem_flatMap.mp hq with ⟨u, hu, hq2⟩
      rcases List.mem_map.mp hq2 with ⟨e, he, rfl⟩
      exact fun h => hPnomatch u hu e he h.symm
    · rcases List.mem_map.mp hq with ⟨e, he, rfl⟩
      exact fun h => hpre e he h.symm
  · exact hPb.symm

theorem C4_exact_match_recency_witness :
    ∃ pre b post, sampleVolNew.data = pre ++ b :: post ∧
      normalizeBlipName b.name = normalizeBlipName ("React".data) ∧
      (∀ b' ∈ pre, normalizeBlipName b'.name ≠ normalizeBlipName ("React".data)) ∧
      findPriorRadarMatch [sampleVolNew, sampleVolOld] ("React".data) =
        some (entryToBlip sampleVolNew b) :=
  C4_exact_match_recency [sampleVolNew, sampleVolOld] ("React".data)
    sampleVolNew sampleVolOld
    (by decide) (by decide) (by decide)
    (by decide) (by decide) (by decide) (by decide)



/-- C6, counterexample: the claim's normalization (at most one trailing
suffix stripped; underscores removed as non-alphanumeric) disagrees with the
code on the input `x_y.org.js` — the code strips both stacked suffixes and
keeps the underscore. -/
theorem C6_normalization_counterexample :
    normalizeBlipName ("x_y.org.js".data) = ("x_y".data) ∧
    claimC6Normalize ("x_y.org.js".data) = ("xyorg".data) ∧
    normalizeBlipName ("x_y.org.js".data) ≠ claimC6Normalize ("x_y.org.js".data) := by
  refine ⟨by decide, by decide, by decide⟩

/-- C6, amended: the normalization lowercases, trims, strips the suffixes
`.js`, `.io`, `.net`, `.org` sequentially in that order (each at most once,
so stacked suffixes can all be removed), removes all characters that are not
alphanumeric, underscore, or whitespace, collapses whitespace runs to a
single space, and trims again. -/
theorem C6_normalization_amended (s : List Char) :
    normalizeBlipName s = claimC6AmendedNormalize s := by
  simp only [normalizeBlipName, claimC6AmendedNormalize]
  have h1 := lower_fixed_trim_lower s
  have h2 := lower_fixed_strip (".js".data) h1
  have h3 := lower_fixed_strip (".io".data) h2
  have h4 := lower_fixed_strip (".net".data) h3
  rw [stripOneSuffix_eq_take (".org".data) h4]
  rw [stripOneSuffix_eq_take (".net".data) h3]
  rw [stripOneSuffix_eq_take (".io".data) h2]
  rw [stripOneSuffix_eq_take (".js".data) h1]
  simp only [isWordChar_eq]
  rfl

/-- C7, counterexample: for a catalog containing an entry whose name
normalizes to the empty string, the empty query does scan and returns that
entry (exact match on empty normalized keys) instead of no-match. -/
theorem C7_empty_query_counterexample :
    findPriorRadarMatch [sampleVolPunct] [] =
      some (entryToBlip sampleVolPunct
        { name := "???".data, ring := "hold".data,
          quadrant := "tools".data, description := "Punctuation only".data }) ∧
    findPriorRadarMatch [sampleVolPunct] [] ≠ none := by
  refine ⟨by decide, by decide⟩

/-- C7, amended: for every query that is empty or whitespace-only, the scan
proceeds with an empty normalized key; when no catalog entry's name
normalizes to the empty string the lookup returns no-match. -/
theorem C7_empty_query_amended (vols : List RadarVolume) (query : List Char)
    (hq : ∀ c ∈ query, isWs c = true)
    (hents : ∀ v ∈ vols, ∀ b ∈ v.data, normalizeBlipName b.name ≠ []) :
    findPriorRadarMatch vols query = none := by
  have hn : normalizeBlipName query = [] := normalize_of_ws hq
  unfold findPriorRadarMatch
  rw [hn]
  apply scan_all_below
  · intro q hq'
    obtain ⟨h1, h2⟩ := mem_volumePairs hq'
    intro he
    exact hents q.1 h1 q.2 h2 he.symm
  · intro q hq'
    obtain ⟨h1, h2⟩ := mem_volumePairs hq'
    have hne := hents q.1 h1 q.2 h2
    show simOf [] q < SIMILARITY_THRESHOLD
    unfold simOf
    rw [similarityScore_nil_left hne]
    norm_num [SIMILARITY_THRESHOLD]

theorem C7_empty_query_amended_witness :
    findPriorRadarMatch [sampleVolNew] (" ".data) = none :=
  C7_empty_query_amended [sampleVolNew] (" ".data) (by decide) (by decide)

/-- C8: for every state of the primary file that is absent, syntactically
invalid, or parses to a non-array, `loadSubmissions` returns the empty list
(the parse error is caught, not propagated). -/
theorem C8_corrupt_read_yields_empty (fs : FileState)
    (h : fs = FileState.absent ∨ fs = FileState.corrupt ∨ fs = FileState.notArray) :
    Store.loadSubmissions fs = [] := by
  rcases h with h | h | h <;> subst h <;> rfl

theorem C8_corrupt_read_yields_empty_witness :
    Store.loadSubmissions FileState.corrupt = [] :=
  C8_corrupt_read_yields_empty FileState.corrupt (Or.inr (Or.inl rfl))

/-- C9: every terminating `saveSubmission` call — returning successfully or
propagating an error (lock-acquisition timeout or post-write verification
failure) — leaves the lock marker absent; with an injected write fault the
verification failure is raised to the caller with the lock already
released. -/
theorem C9_lock_always_released (st : StoreState) (sub : BlipSubmission)
    (writeFault : Bool) :
    (Store.saveSubmission st sub writeFault).2.lock = false ∧
    (st.lock = false → writeFault = true →
      ∃ e, (Store.saveSubmission st sub writeFault).1 = Except.error e) := by
  constructor
  · by_cases hl : st.lock = true
    · simp [Store.saveSubmission, hl]
    · cases hf : st.file <;> cases hw : writeFault <;>
        simp [Store.saveSubmission, hl, hf, Store.loadSubmissions, Store.readAndParse]
  · intro h0 hw
    subst hw
    have hl : ¬ st.lock = true := by rw [h0]; exact Bool.false_ne_true
    cases hf : st.file <;>
      simp [Store.saveSubmission, hl, hf]

theorem C9_lock_always_released_witness :
    (Store.saveSubmission initState sampleSubA true).2.lock = false ∧
    ∃ e, (Store.saveSubmission initState sampleSubA true).1 = Except.error e :=
  ⟨(C9_lock_always_released initState sampleSubA true).1,
   (C9_lock_always_released initState sampleSubA true).2 rfl rfl⟩

/-- C10: the matcher's name normalization is idempotent, so comparison keys
are stable under re-normalization. -/
theorem C10_normalization_idempotent (s : List Char) :
    normalizeBlipName (normalizeBlipName s) = normalizeBlipName s :=
  normalizeBlipName_idem s

theorem C5_threshold_and_ties_witness :
    findPriorRadarMatch [sampleVolFuzzy] ("abcdefghij".data) =
      some (entryToBlip sampleVolFuzzy
        { name := "abcdefghix".data, ring := "trial".data,
          quadrant := "tools".data, description := "Close name".data }) := by
  have h1 : normalizeBlipName ("abcdefghij".data) = ("abcdefghij".data) := by decide
  have hv1 : simOf (normalizeBlipName ("abcdefghij".data))
      (sampleVolFuzzy,
        { name := "abcdefghix".data, ring := "trial".data,
          quadrant := "tools".data, description := "Close name".data }) = 9/10 := by
    have h2 : normalizeBlipName ("abcdefghix".data) = ("abcdefghix".data) := by decide
    have h3 : levenshteinDistance ("abcdefghij".data) ("abcdefghix".data) = 1 := by decide
    have hl1 : ("abcdefghij".data).length = 10 := rfl
    have hl2 : ("abcdefghix".data).length = 10 := rfl
    show similarityScore (normalizeBlipName ("abcdefghij".data))
      (normalizeBlipName ("abcdefghix".data)) = 9/10
    rw [h1, h2]
    simp only [similarityScore, hl1, hl2, h3]
    norm_num
  have hv2 : simOf (normalizeBlipName ("abcdefghij".data))
      (sampleVolFuzzy,
        { name := "zzzzzzzzzz".data, ring := "assess".data,
          quadrant := "tools".data, description := "Far name".data }) = 0 := by
    have h2 : normalizeBlipName ("zzzzzzzzzz".data) = ("zzzzzzzzzz".data) := by decide
    have h3 : levenshteinDistance ("abcdefghij".data) ("zzzzzzzzzz".data) = 10 := by decide
    have hl1 : ("abcdefghij".data).length = 10 := rfl
    have hl2 : ("zzzzzzzzzz".data).length = 10 := rfl
    show similarityScore (normalizeBlipName ("abcdefghij".data))
      (normalizeBlipName ("zzzzzzzzzz".data)) = 0
    rw [h1, h2]
    simp only [similarityScore, hl1, hl2, h3]
    norm_num
  have happ := (C5_threshold_and_ties [sampleVolFuzzy] ("abcdefghij".data) (by decide)).2
    [] (sampleVolFuzzy,
        { name := "abcdefghix".data, ring := "trial".data,
          quadrant := "tools".data, description := "Close name".data })
    [(sampleVolFuzzy,
        { name := "zzzzzzzzzz".data, ring := "assess".data,
          quadrant := "tools".data, description := "Far name".data })]
    (by decide)
    (by rw [hv1]; norm_num [SIMILARITY_THRESHOLD])
    (by intro q hq; exact absurd hq (List.not_mem_nil q))
    (by
      intro q hq
      have : q = (sampleVolFuzzy,
        { name := "zzzzzzzzzz".data, ring := "assess".data,
          quadrant := "tools".data, description := "Far name".data }) := by
        simpa using hq
      rw [this, hv2, hv1]
      norm_num)
  simpa using happ
